import Mathlib

/-!
Shallow embedding of the task-dependency graph engine of this repository
(`src/adag.rs`: `Task`, `OctoTree` with `add_task`, `topological_sort`,
`critical_path`; `src/trading_dag.rs`: `TradingWorkflow`), together with
proofs of the specified properties.

Modelling choices:
* `HashMap<String, _>` becomes an association list `List (String × _)`;
  `insert` replaces the entry for an existing key in place and appends a
  new key at the end, and iteration order is the list order (one admissible
  iteration order of the unordered map — every property proved below about
  error results, permutations and dependency ordering is independent of
  the tie-break order).
* `usize` / `u32` become `Nat`.  The only subtraction in the source is
  `*degree -= 1`; decrementing a zero `usize` is a panic (debug) / wrap
  (release), so the embedding makes that case an explicit abnormal result
  (`none`) and we prove it is never reached.
* The `while let Some(task_id) = queue.pop_front()` loop is written with an
  explicit fuel parameter; `kahnLoopF` answers `none` when the fuel runs
  out, and `topological_sort` supplies fuel that is proved sufficient
  (`kahnLoopF_fuel_enough`), so the fuel is an artifact of totality, not a
  semantic change.
-/

namespace Adag

structure Task where
  id : String
  name : String
  duration : Nat
  dependencies : List String
deriving Repr, DecidableEq

structure OctoTree where
  tasks : List (String × Task)
deriving Repr, DecidableEq

/-- `HashMap::insert`: replace the entry for the key if present, otherwise add it. -/
def mapInsert {α : Type} (m : List (String × α)) (k : String) (v : α) : List (String × α) :=
  match m with
  | [] => [(k, v)]
  | p :: rest => if p.1 = k then (k, v) :: rest else p :: mapInsert rest k v

/-- `HashMap::get`: the value stored at the key, if any. -/
def mapGet {α : Type} (m : List (String × α)) (k : String) : Option α :=
  match m with
  | [] => none
  | p :: rest => if p.1 = k then some p.2 else mapGet rest k

def OctoTree.new : OctoTree := ⟨[]⟩

/-- `OctoTree::add_task`: `self.tasks.insert(task.id.clone(), task)`. -/
def OctoTree.add_task (g : OctoTree) (task : Task) : OctoTree :=
  ⟨mapInsert g.tasks task.id task⟩

/-- First phase of `topological_sort`: `in_degree.insert(id, task.dependencies.len())`
for every task of the map. -/
def buildInDegree (tasks : List (String × Task)) : List (String × Nat) :=
  tasks.foldl (fun m p => mapInsert m p.1 p.2.dependencies.length) []

/-- `adj_list.entry(dep).or_default().push(id)`. -/
def adjPush (adj : List (String × List String)) (dep id : String) :
    List (String × List String) :=
  match adj with
  | [] => [(dep, [id])]
  | p :: rest => if p.1 = dep then (p.1, p.2 ++ [id]) :: rest else p :: adjPush rest dep id

/-- First phase of `topological_sort`: for every task and every dependency `dep`,
record the edge `dep → id` in the adjacency map. -/
def buildAdj (tasks : List (String × Task)) : List (String × List String) :=
  tasks.foldl (fun adj p => p.2.dependencies.foldl (fun a dep => adjPush a dep p.1) adj) []

/-- Seeding of the queue: every id whose in-degree is `0`, in map iteration order. -/
def seedQueue (inDeg : List (String × Nat)) : List String :=
  (inDeg.filter (fun p => p.2 == 0)).map Prod.fst

/-- The inner `for neighbor in neighbors` loop of Kahn's algorithm: decrement the
in-degree of each neighbor that has an entry and collect the ids that reach `0`
(in the order they are pushed onto the queue).  Decrementing a zero `usize`
underflows in the source; that abnormal case is `none`. -/
def processNeighbors (inDeg : List (String × Nat)) (neighbors : List String) :
    Option (List (String × Nat) × List String) :=
  match neighbors with
  | [] => some (inDeg, [])
  | n :: rest =>
    match mapGet inDeg n with
    | none => processNeighbors inDeg rest
    | some d =>
      if d = 0 then none
      else
        match processNeighbors (mapInsert inDeg n (d - 1)) rest with
        | none => none
        | some (m, zs) => some (m, (if d - 1 = 0 then [n] else []) ++ zs)

def sumDeg (inDeg : List (String × Nat)) : Nat :=
  (inDeg.map Prod.snd).sum

/-- The `while let Some(task_id) = queue.pop_front()` loop of `topological_sort`,
with explicit fuel.  `none` = fuel exhausted, `some none` = usize underflow,
`some (some result)` = normal completion with an empty queue. -/
def kahnLoopF (adj : List (String × List String)) :
    Nat → List (String × Nat) → List String → List String → Option (Option (List String))
  | _, _, [], result => some (some result)
  | 0, _, _ :: _, _ => none
  | fuel + 1, inDeg, t :: rest, result =>
    match processNeighbors inDeg ((mapGet adj t).getD []) with
    | none => some none
    | some (inDeg2, zs) => kahnLoopF adj fuel inDeg2 (rest ++ zs) (result ++ [t])

/-- `OctoTree::topological_sort` with an explicit fuel for the worklist loop. -/
def OctoTree.topological_sortAux (g : OctoTree) (fuel : Nat) :
    Option (Except String (List String)) :=
  let in_degree := buildInDegree g.tasks
  let adj_list := buildAdj g.tasks
  let queue := seedQueue in_degree
  match kahnLoopF adj_list fuel in_degree queue [] with
  | none => none
  | some none => none
  | some (some result) =>
    if result.length ≠ g.tasks.length then some (Except.error "Cycle detected in DAG")
    else some (Except.ok result)

/-- Fuel that is always sufficient for the worklist loop (proved below). -/
def OctoTree.fuelBound (g : OctoTree) : Nat :=
  sumDeg (buildInDegree g.tasks) + (seedQueue (buildInDegree g.tasks)).length

/-- `OctoTree::topological_sort`. -/
def OctoTree.topological_sort (g : OctoTree) : Option (Except String (List String)) :=
  g.topological_sortAux g.fuelBound

/-- `OctoTree::critical_path`. -/
def OctoTree.critical_path (g : OctoTree) :
    Option (Except String (List String × Nat)) :=
  match g.topological_sort with
  | none => none
  | some (Except.error e) => some (Except.error e)
  | some (Except.ok topo_order) =>
    let earliest_start := topo_order.foldl (fun es task_id =>
      match mapGet g.tasks task_id with
      | none => es
      | some task =>
        let max_dep_finish :=
          ((task.dependencies.filterMap (fun dep => mapGet es dep)).max?).getD 0
        mapInsert es task_id max_dep_finish) []
    let max_time := ((earliest_start.map Prod.snd).max?).getD 0
    let critical_tasks :=
      topo_order.filter (fun id => ((mapGet earliest_start id).getD 0) == max_time)
    some (Except.ok (critical_tasks, max_time))

/-- `TradingWorkflow` (from `src/trading_dag.rs`). -/
structure TradingWorkflow where
  dag : OctoTree

/-- `TradingWorkflow::new`: the fixed five-task linear trading pipeline. -/
def TradingWorkflow.new : TradingWorkflow :=
  { dag :=
      (((((OctoTree.new.add_task
        { id := "fetch_data", name := "Fetch Market Data", duration := 2,
          dependencies := [] }).add_task
        { id := "calculate_indicators", name := "Calculate Technical Indicators",
          duration := 3, dependencies := ["fetch_data"] }).add_task
        { id := "generate_signals", name := "Generate Trading Signals", duration := 2,
          dependencies := ["calculate_indicators"] }).add_task
        { id := "risk_check", name := "Risk Management Check", duration := 1,
          dependencies := ["generate_signals"] }).add_task
        { id := "execute_trades", name := "Execute Trades", duration := 2,
          dependencies := ["risk_check"] }) }

/-- `TradingWorkflow::get_execution_order`. -/
def TradingWorkflow.get_execution_order (w : TradingWorkflow) :
    Option (Except String (List String)) :=
  w.dag.topological_sort

/-! ### Derived notions used to state the specification -/

/-- The task ids present in the graph (the key set of the map). -/
def keysOf (tasks : List (String × Task)) : List String := tasks.map Prod.fst

/-- A well-formed graph: the association list has no duplicate keys.  Every
graph built with `OctoTree.new` / `add_task` satisfies this. -/
def OctoTree.WF (g : OctoTree) : Prop := (keysOf g.tasks).Nodup

/-- Number of dependency occurrences of a task whose target has not been
emitted yet; this is exactly the in-degree bookkeeping of Kahn's algorithm. -/
def degAfter (task : Task) (res : List String) : Nat :=
  task.dependencies.countP (fun d => decide (d ∉ res))

/-- The neighbor list that `adj_list` associates to `t`: one copy of `id` for
every occurrence of `t` in `id`'s dependency list, in task order. -/
def adjOf (tasks : List (String × Task)) (t : String) : List String :=
  tasks.flatMap (fun p => (p.2.dependencies.filter (fun d => d == t)).map (fun _ => p.1))

/-- `Depends g x y`: task `x` exists and lists `y` among its dependencies. -/
def Depends (g : OctoTree) (x y : String) : Prop :=
  ∃ p ∈ g.tasks, p.1 = x ∧ y ∈ p.2.dependencies

/-- A true cycle among the defined tasks. -/
def HasCycle (g : OctoTree) : Prop :=
  ∃ x, Relation.TransGen (Depends g) x x

/-- The two-task chain of the repository's unit test (`B` depends on `A`). -/
def exampleChain : OctoTree :=
  (OctoTree.new.add_task
    { id := "A", name := "Task A", duration := 5, dependencies := [] }).add_task
    { id := "B", name := "Task B", duration := 3, dependencies := ["A"] }

/-- A graph whose only task references a nonexistent dependency id. -/
def exampleGhost : OctoTree :=
  OctoTree.new.add_task
    { id := "A", name := "Task A", duration := 1, dependencies := ["ghost"] }

/-- A two-task true cycle `A ↔ B`. -/
def exampleCycle : OctoTree :=
  (OctoTree.new.add_task
    { id := "A", name := "Task A", duration := 1, dependencies := ["B"] }).add_task
    { id := "B", name := "Task B", duration := 1, dependencies := ["A"] }

/-! ### Association-list lemmas -/

theorem mapGet_eq_none {α : Type} {m : List (String × α)} {k : String} :
    mapGet m k = none ↔ k ∉ m.map Prod.fst := by
  induction m with
  | nil => simp [mapGet]
  | cons p rest ih =>
    by_cases h : p.1 = k
    · simp [mapGet, h]
    · rw [show mapGet (p :: rest) k = mapGet rest k from by simp [mapGet, h], ih]
      simp only [List.map_cons, List.mem_cons, not_or]
      exact ⟨fun hk => ⟨fun he => h he.symm, hk⟩, fun hk => hk.2⟩

theorem mapGet_mem {α : Type} {m : List (String × α)} {k : String} {v : α}
    (h : mapGet m k = some v) : (k, v) ∈ m := by
  induction m with
  | nil => simp [mapGet] at h
  | cons p rest ih =>
    by_cases hk : p.1 = k
    · simp [mapGet, hk] at h
      have hp : p = (k, v) := by cases p; simp_all
      rw [hp]
      exact List.mem_cons_self _ _
    · simp [mapGet, hk] at h
      exact List.mem_cons_of_mem _ (ih h)

theorem mapGet_of_mem_nodup {α : Type} {m : List (String × α)}
    (hnd : (m.map Prod.fst).Nodup) {p : String × α} (hp : p ∈ m) :
    mapGet m p.1 = some p.2 := by
  induction m with
  | nil => simp at hp
  | cons q rest ih =>
    simp only [List.map_cons, List.nodup_cons] at hnd
    rcases List.mem_cons.mp hp with h | h
    · subst h; simp [mapGet]
    · have hne : q.1 ≠ p.1 := by
        intro he
        exact hnd.1 (he ▸ List.mem_map_of_mem Prod.fst h)
      simp [mapGet, hne]
      exact ih hnd.2 h

theorem mapGet_mapInsert {α : Type} (m : List (String × α)) (k k' : String) (v : α) :
    mapGet (mapInsert m k v) k' = if k = k' then some v else mapGet m k' := by
  induction m with
  | nil => simp [mapInsert, mapGet]
  | cons p rest ih =>
    by_cases hp : p.1 = k
    · by_cases hk : k = k'
      · simp [mapInsert, mapGet, hp, hk]
      · have : p.1 ≠ k' := by rw [hp]; exact hk
        simp [mapInsert, mapGet, hp, hk, this]
    · by_cases hp' : p.1 = k'
      · have hkk : ¬ k = k' := fun he => hp (he ▸ hp')
        have hkk' : ¬ k' = k := fun he => hkk he.symm
        simp [mapInsert, mapGet, hp, hp', hkk, hkk']
      · simp [mapInsert, mapGet, hp, hp', ih]

theorem map_if_eq_of_not_mem {α : Type} {rest : List (String × α)} {k : String} {v : α}
    (h : k ∉ rest.map Prod.fst) :
    rest.map (fun p => if p.1 = k then (k, v) else p) = rest := by
  induction rest with
  | nil => rfl
  | cons q rest ih =>
    simp only [List.map_cons, List.mem_cons, not_or] at h
    have hq : q.1 ≠ k := fun he => h.1 he.symm
    simp [hq, ih h.2]

theorem mapInsert_eq_map {α : Type} {m : List (String × α)}
    (hnd : (m.map Prod.fst).Nodup) {k : String} (hk : k ∈ m.map Prod.fst) (v : α) :
    mapInsert m k v = m.map (fun p => if p.1 = k then (k, v) else p) := by
  induction m with
  | nil => simp at hk
  | cons p rest ih =>
    simp only [List.map_cons, List.nodup_cons] at hnd
    by_cases hp : p.1 = k
    · have : k ∉ rest.map Prod.fst := hp ▸ hnd.1
      simp [mapInsert, hp, map_if_eq_of_not_mem this]
    · have hkr : k ∈ rest.map Prod.fst := by
        rcases List.mem_cons.mp hk with h | h
        · exact absurd h.symm hp
        · exact h
      simp [mapInsert, hp, ih hnd.2 hkr]

theorem mapInsert_of_not_mem {α : Type} {m : List (String × α)} {k : String}
    (hk : k ∉ m.map Prod.fst) (v : α) : mapInsert m k v = m ++ [(k, v)] := by
  induction m with
  | nil => rfl
  | cons p rest ih =>
    simp only [List.map_cons, List.mem_cons, not_or] at hk
    have hp : p.1 ≠ k := fun he => hk.1 he.symm
    simp [mapInsert, hp, ih hk.2]

theorem mapGet_map_snd {α β : Type} (f : α → β) (m : List (String × α)) (k : String) :
    mapGet (m.map (fun p => (p.1, f p.2))) k = (mapGet m k).map f := by
  induction m with
  | nil => simp [mapGet]
  | cons p rest ih =>
    by_cases hp : p.1 = k <;> simp [mapGet, hp, ih]

theorem sumDeg_mapInsert {m : List (String × Nat)} {k : String} {d : Nat}
    (h : mapGet m k = some d) (v : Nat) :
    sumDeg (mapInsert m k v) + d = sumDeg m + v := by
  induction m with
  | nil => simp [mapGet] at h
  | cons p rest ih =>
    by_cases hp : p.1 = k
    · simp [mapGet, hp] at h
      simp [mapInsert, hp, sumDeg]
      omega
    · simp [mapGet, hp] at h
      have := ih h
      simp [mapInsert, hp, sumDeg] at *
      omega

theorem count_le_countP {l : List String} {t : String} {p : String → Bool}
    (ht : p t = true) : l.count t ≤ l.countP p := by
  induction l with
  | nil => simp
  | cons a l ih =>
    by_cases ha : a = t
    · subst ha
      simp [List.count_cons, List.countP_cons, ht]
      omega
    · have : ¬ (a == t) := by simp [ha]
      simp only [List.count_cons, List.countP_cons, this]
      by_cases hpa : p a = true <;> simp [hpa] <;> omega

theorem map_congr_mem {α β : Type} {l : List α} {f g : α → β}
    (h : ∀ a ∈ l, f a = g a) : l.map f = l.map g := by
  induction l with
  | nil => rfl
  | cons a l ih =>
    simp only [List.map_cons]
    rw [h a (List.mem_cons_self _ _), ih (fun b hb => h b (List.mem_cons_of_mem _ hb))]

/-! ### Characterization of the bookkeeping structures -/

theorem foldl_mapInsert_fresh {β : Type} (f : Task → β) :
    ∀ (T : List (String × Task)) (acc : List (String × β)),
      (∀ k ∈ keysOf T, k ∉ acc.map Prod.fst) → (keysOf T).Nodup →
      T.foldl (fun m p => mapInsert m p.1 (f p.2)) acc = acc ++ T.map (fun p => (p.1, f p.2)) := by
  intro T
  induction T with
  | nil => intro acc _ _; simp
  | cons p rest ih =>
    intro acc hfresh hnd
    simp only [keysOf, List.map_cons, List.nodup_cons] at hnd
    have hp : p.1 ∉ acc.map Prod.fst :=
      hfresh p.1 (by simp [keysOf])
    simp only [List.foldl_cons]
    rw [mapInsert_of_not_mem hp, ih (acc ++ [(p.1, f p.2)])]
    · simp
    · intro k hk
      simp only [List.map_append, List.mem_append, not_or]
      constructor
      · exact hfresh k (List.mem_cons_of_mem _ hk)
      · intro he
        simp at he
        exact hnd.1 (he ▸ hk)
    · exact hnd.2

theorem buildInDegree_eq {T : List (String × Task)} (hnd : (keysOf T).Nodup) :
    buildInDegree T = T.map (fun p => (p.1, p.2.dependencies.length)) := by
  have h := foldl_mapInsert_fresh (fun t => t.dependencies.length) T [] (by simp) hnd
  simpa [buildInDegree] using h

theorem mapGet_adjPush (adj : List (String × List String)) (dep id k : String) :
    mapGet (adjPush adj dep id) k =
      if dep = k then some ((mapGet adj dep).getD [] ++ [id]) else mapGet adj k := by
  induction adj with
  | nil => by_cases h : dep = k <;> simp [adjPush, mapGet, h]
  | cons p rest ih =>
    by_cases hp : p.1 = dep
    · by_cases hk : dep = k
      · simp [adjPush, mapGet, hp, hk]
      · have : ¬ p.1 = k := fun he => hk (hp ▸ he)
        simp [adjPush, mapGet, hp, hk, this]
    · have hstep : mapGet (adjPush (p :: rest) dep id) k =
          if p.1 = k then some p.2 else mapGet (adjPush rest dep id) k := by
        simp [adjPush, mapGet, hp]
      rw [hstep]
      by_cases hk : p.1 = k
      · have hdk : ¬ dep = k := fun he => hp (by rw [hk, he])
        simp [mapGet, hp, hk, hdk]
      · rw [if_neg hk, ih]
        by_cases hdk : dep = k
        · simp [mapGet, hp, hk, hdk]
        · simp [mapGet, hp, hk, hdk]

theorem adjOf_cons (p : String × Task) (T : List (String × Task)) (t : String) :
    adjOf (p :: T) t =
      (p.2.dependencies.filter (fun d => d == t)).map (fun _ => p.1) ++ adjOf T t := by
  simp [adjOf]

theorem mapGet_foldl_adjPush (ds : List String) (id k : String) :
    ∀ (a : List (String × List String)),
      (mapGet (ds.foldl (fun a dep => adjPush a dep id) a) k).getD [] =
        (mapGet a k).getD [] ++ (ds.filter (fun d => d == k)).map (fun _ => id) := by
  induction ds with
  | nil => intro a; simp
  | cons d ds ih =>
    intro a
    simp only [List.foldl_cons]
    rw [ih (adjPush a d id), mapGet_adjPush]
    by_cases hd : d = k
    · subst hd
      simp [List.filter_cons]
    · have hb : ¬ (d == k) := by simp [hd]
      simp [hd, List.filter_cons, hb]

theorem mapGet_buildAdj (T : List (String × Task)) (k : String) :
    (mapGet (buildAdj T) k).getD [] = adjOf T k := by
  suffices h : ∀ acc, (mapGet (T.foldl
      (fun adj p => p.2.dependencies.foldl (fun a dep => adjPush a dep p.1) adj) acc) k).getD [] =
      (mapGet acc k).getD [] ++ adjOf T k by
    simpa [buildAdj, mapGet] using h []
  induction T with
  | nil => intro acc; simp [adjOf]
  | cons p rest ih =>
    intro acc
    simp only [List.foldl_cons]
    rw [ih, mapGet_foldl_adjPush, adjOf_cons, List.append_assoc]

theorem mem_adjOf {T : List (String × Task)} {t x : String} (h : x ∈ adjOf T t) :
    x ∈ keysOf T := by
  simp only [adjOf, List.mem_flatMap, List.mem_map] at h
  obtain ⟨p, hp, _, _, he⟩ := h
  exact he ▸ List.mem_map_of_mem Prod.fst hp

theorem count_map_const (l : List String) (c x : String) :
    (l.map (fun _ => c)).count x = if c = x then l.length else 0 := by
  induction l with
  | nil => simp
  | cons a l ih =>
    simp only [List.map_cons, List.count_cons, ih]
    by_cases h : c = x
    · simp [h]
    · have hb : ¬ (c == x) := by simp [h]
      simp [h, hb]

theorem count_adjOf {T : List (String × Task)} (hnd : (keysOf T).Nodup)
    {p : String × Task} (hp : p ∈ T) (t : String) :
    (adjOf T t).count p.1 = p.2.dependencies.count t := by
  induction T with
  | nil => simp at hp
  | cons q rest ih =>
    rw [adjOf_cons, List.count_append]
    simp only [keysOf, List.map_cons, List.nodup_cons] at hnd
    rcases List.mem_cons.mp hp with h | h
    · subst h
      have h1 : ((p.2.dependencies.filter (fun d => d == t)).map
          (fun _ => p.1)).count p.1 = (p.2.dependencies.filter (fun d => d == t)).length := by
        rw [count_map_const]; simp
      have h2 : (adjOf rest t).count p.1 = 0 := by
        rw [List.count_eq_zero]
        intro hmem
        exact hnd.1 (mem_adjOf hmem)
      rw [h1, h2, List.count_eq_countP, List.countP_eq_length_filter]
      omega
    · have hq : q.1 ≠ p.1 := by
        intro he
        exact hnd.1 (he ▸ List.mem_map_of_mem Prod.fst h)
      have h1 : ((q.2.dependencies.filter (fun d => d == t)).map
          (fun _ => q.1)).count p.1 = 0 := by
        rw [count_map_const, if_neg hq]
      rw [h1, ih hnd.2 h]
      omega

/-! ### Earliest bookkeeping: `degAfter` -/

theorem degAfter_nil (tk : Task) : degAfter tk [] = tk.dependencies.length := by
  simp [degAfter]

theorem degAfter_append {tk : Task} {res : List String} {t : String} (ht : t ∉ res) :
    degAfter tk (res ++ [t]) + tk.dependencies.count t = degAfter tk res := by
  unfold degAfter
  induction tk.dependencies with
  | nil => simp
  | cons a l ih =>
    simp only [List.countP_cons, List.count_cons]
    have i0 : (if false = true then (1:Nat) else 0) = 0 := rfl
    have i1 : (if true = true then (1:Nat) else 0) = 1 := rfl
    by_cases ha : a = t
    · subst ha
      have h1 : (decide (a ∉ res ++ [a])) = false := by simp
      have h2 : (decide (a ∉ res)) = true := by simpa using ht
      have h3 : (a == a) = true := by simp
      rw [h1, h2, h3]
      simp only [i0, i1]
      omega
    · have hb : (a == t) = false := by simp [ha]
      have h1 : (decide (a ∉ res ++ [t])) = decide (a ∉ res) := by
        simp [List.mem_append, ha]
      rw [h1, hb]
      cases hd : decide (a ∉ res) <;> simp only [i0, i1] <;> omega

/-! ### The inner neighbor loop -/

theorem processNeighbors_sum :
    ∀ (ns : List String) (m m2 : List (String × Nat)) (zs : List String),
      processNeighbors m ns = some (m2, zs) → sumDeg m2 + zs.length ≤ sumDeg m := by
  intro ns
  induction ns with
  | nil =>
    intro m m2 zs h
    simp only [processNeighbors, Option.some.injEq, Prod.mk.injEq] at h
    obtain ⟨h1, h2⟩ := h
    subst h1; subst h2; simp
  | cons n rest ih =>
    intro m m2 zs h
    cases hg : mapGet m n with
    | none =>
      have h' : processNeighbors m rest = some (m2, zs) := by
        rw [← h]; simp [processNeighbors, hg]
      exact ih _ _ _ h'
    | some d =>
      by_cases hd : d = 0
      · exfalso
        have hnone : processNeighbors m (n :: rest) = none := by
          simp [processNeighbors, hg, hd]
        rw [hnone] at h
        exact Option.noConfusion h
      · cases hrec : processNeighbors (mapInsert m n (d - 1)) rest with
        | none =>
          exfalso
          have hnone : processNeighbors m (n :: rest) = none := by
            simp [processNeighbors, hg, hd, hrec]
          rw [hnone] at h
          exact Option.noConfusion h
        | some pr =>
          obtain ⟨m', zs'⟩ := pr
          have heq : processNeighbors m (n :: rest) =
              some (m', (if d - 1 = 0 then [n] else []) ++ zs') := by
            simp [processNeighbors, hg, hd, hrec]
          rw [heq] at h
          simp only [Option.some.injEq, Prod.mk.injEq] at h
          obtain ⟨hm, hzs⟩ := h
          subst hm
          have hsum := ih _ _ _ hrec
          have hins := sumDeg_mapInsert hg (d - 1)
          have hlen : zs.length ≤ 1 + zs'.length := by
            rw [← hzs]
            by_cases hz : d - 1 = 0
            · simp [hz]
              omega
            · simp [hz]
          omega

theorem processNeighbors_spec :
    ∀ (ns : List String) (m : List (String × Nat)),
      (m.map Prod.fst).Nodup →
      (∀ n ∈ ns, ∀ d, mapGet m n = some d → ns.count n ≤ d) →
      ∃ zs, processNeighbors m ns = some (m.map (fun p => (p.1, p.2 - ns.count p.1)), zs) ∧
        zs.Nodup ∧ (∀ z ∈ zs, z ∈ ns) ∧
        (∀ k, k ∈ zs ↔ ∃ d, mapGet m k = some d ∧ 0 < d ∧ d = ns.count k) := by
  intro ns
  induction ns with
  | nil =>
    intro m _ _
    refine ⟨[], ?_, List.nodup_nil, by simp, by simp⟩
    simp [processNeighbors]
  | cons n rest ih =>
    intro m hnd hcnt
    cases hg : mapGet m n with
    | none =>
      have hkeys : n ∉ m.map Prod.fst := mapGet_eq_none.mp hg
      have hcnt' : ∀ x ∈ rest, ∀ d, mapGet m x = some d → rest.count x ≤ d := by
        intro x hx d hxd
        have := hcnt x (List.mem_cons_of_mem _ hx) d hxd
        have hle : rest.count x ≤ (n :: rest).count x := by
          rw [List.count_cons]; omega
        omega
      obtain ⟨zs, hpn, hzn, hzs, hch⟩ := ih m hnd hcnt'
      have hmemkey : ∀ k d, mapGet m k = some d → k ≠ n := by
        intro k d hk he
        rw [he] at hk
        rw [hg] at hk
        exact Option.noConfusion hk
      refine ⟨zs, ?_, hzn, fun z hz => List.mem_cons_of_mem _ (hzs z hz), ?_⟩
      · have hmap : m.map (fun p => (p.1, p.2 - rest.count p.1)) =
            m.map (fun p => (p.1, p.2 - (n :: rest).count p.1)) := by
          apply map_congr_mem
          intro p hp
          have hpn : p.1 ≠ n := by
            intro he
            exact hkeys (he ▸ List.mem_map_of_mem Prod.fst hp)
          rw [List.count_cons_of_ne hpn]
        rw [show processNeighbors m (n :: rest) = processNeighbors m rest from by
          simp [processNeighbors, hg], hpn, hmap]
      · intro k
        rw [hch k]
        constructor
        · rintro ⟨d, hk, hd, hc⟩
          refine ⟨d, hk, hd, ?_⟩
          rw [List.count_cons_of_ne (hmemkey k d hk), hc]
        · rintro ⟨d, hk, hd, hc⟩
          refine ⟨d, hk, hd, ?_⟩
          rw [List.count_cons_of_ne (hmemkey k d hk)] at hc
          exact hc
    | some d =>
      have hc0 : (n :: rest).count n ≤ d := hcnt n (List.mem_cons_self _ _) d hg
      have hcn : (n :: rest).count n = rest.count n + 1 := by
        rw [List.count_cons_self]
      have hd0 : d ≠ 0 := by omega
      have hn_mem : n ∈ m.map Prod.fst := by
        by_contra hc
        rw [mapGet_eq_none.mpr hc] at hg
        exact Option.noConfusion hg
      have hm1 : mapInsert m n (d - 1) = m.map (fun p => if p.1 = n then (n, d - 1) else p) :=
        mapInsert_eq_map hnd hn_mem _
      have hkeys1 : (mapInsert m n (d - 1)).map Prod.fst = m.map Prod.fst := by
        rw [hm1, List.map_map]
        apply map_congr_mem
        intro p _
        by_cases hp : p.1 = n <;> simp [hp]
      have hget1 : ∀ k, mapGet (mapInsert m n (d - 1)) k =
          if n = k then some (d - 1) else mapGet m k := fun k => mapGet_mapInsert m n k _
      have hnd1 : ((mapInsert m n (d - 1)).map Prod.fst).Nodup := by rw [hkeys1]; exact hnd
      have hcnt1 : ∀ x ∈ rest, ∀ d2, mapGet (mapInsert m n (d - 1)) x = some d2 →
          rest.count x ≤ d2 := by
        intro x hx d2 hxd
        rw [hget1 x] at hxd
        by_cases hxn : n = x
        · subst hxn
          rw [if_pos rfl] at hxd
          have : d2 = d - 1 := by
            injection hxd
            omega
          omega
        · rw [if_neg hxn] at hxd
          have h1 := hcnt x (List.mem_cons_of_mem _ hx) d2 hxd
          have h2 : (n :: rest).count x = rest.count x := by
            rw [List.count_cons_of_ne (fun he => hxn he.symm)]
          omega
      obtain ⟨zs1, hpn1, hzn1, hzs1, hch1⟩ := ih (mapInsert m n (d - 1)) hnd1 hcnt1
      have hmap : (mapInsert m n (d - 1)).map (fun p => (p.1, p.2 - rest.count p.1)) =
          m.map (fun p => (p.1, p.2 - (n :: rest).count p.1)) := by
        rw [hm1, List.map_map]
        apply map_congr_mem
        intro p hp
        simp only [Function.comp_apply]
        by_cases hpn : p.1 = n
        · have hpd : p.2 = d := by
            have h1 := mapGet_of_mem_nodup hnd hp
            rw [hpn, hg] at h1
            injection h1 with h1
            omega
          rw [if_pos hpn]
          show (n, d - 1 - List.count n rest) = (p.1, p.2 - List.count p.1 (n :: rest))
          rw [hpn, hpd, hcn]
          have he : d - 1 - List.count n rest = d - (List.count n rest + 1) := by omega
          rw [he]
        · rw [if_neg hpn]
          show (p.1, p.2 - List.count p.1 rest) = (p.1, p.2 - List.count p.1 (n :: rest))
          rw [List.count_cons_of_ne hpn]
      have hnot1 : d - 1 = 0 → n ∉ zs1 := by
        intro hz1 hmem
        obtain ⟨d2, hk2, h02, _⟩ := (hch1 n).mp hmem
        rw [hget1 n, if_pos rfl] at hk2
        injection hk2 with hk2
        omega
      refine ⟨(if d - 1 = 0 then [n] else []) ++ zs1, ?_, ?_, ?_, ?_⟩
      · have hstep : processNeighbors m (n :: rest) =
            some ((mapInsert m n (d - 1)).map (fun p => (p.1, p.2 - rest.count p.1)),
              (if d - 1 = 0 then [n] else []) ++ zs1) := by
          simp [processNeighbors, hg, hd0, hpn1]
        rw [hstep, hmap]
      · by_cases hz1 : d - 1 = 0
        · simp only [hz1, if_pos rfl, List.singleton_append]
          exact List.nodup_cons.mpr ⟨hnot1 hz1, hzn1⟩
        · simp only [hz1, if_neg hz1, List.nil_append]
          exact hzn1
      · intro z hz
        rcases List.mem_append.mp hz with h | h
        · by_cases hz1 : d - 1 = 0
          · rw [if_pos hz1] at h
            simp at h
            exact h ▸ List.mem_cons_self _ _
          · rw [if_neg hz1] at h
            simp at h
        · exact List.mem_cons_of_mem _ (hzs1 z h)
      · intro k
        by_cases hkn : k = n
        · subst hkn
          have hz1mem : k ∈ zs1 ↔ (1 < d ∧ d = rest.count k + 1) := by
            rw [hch1 k]
            constructor
            · rintro ⟨d2, hk2, h02, hc2⟩
              rw [hget1 k, if_pos rfl] at hk2
              injection hk2 with hk2
              omega
            · intro ⟨h1, h2⟩
              refine ⟨d - 1, ?_, by omega, by omega⟩
              rw [hget1 k, if_pos rfl]
          constructor
          · intro hmem
            rcases List.mem_append.mp hmem with h | h
            · by_cases hz1 : d - 1 = 0
              · refine ⟨d, hg, by omega, ?_⟩
                rw [List.count_cons_self]
                omega
              · rw [if_neg hz1] at h
                simp at h
            · obtain ⟨h1, h2⟩ := hz1mem.mp h
              refine ⟨d, hg, by omega, ?_⟩
              rw [List.count_cons_self]
              omega
          · rintro ⟨d2, hk2, h02, hc2⟩
            rw [hg] at hk2
            injection hk2 with hk2
            subst hk2
            rw [List.count_cons_self] at hc2
            by_cases hz1 : d - 1 = 0
            · apply List.mem_append.mpr
              left
              rw [if_pos hz1]
              exact List.mem_singleton.mpr rfl
            · apply List.mem_append.mpr
              right
              exact hz1mem.mpr ⟨by omega, by omega⟩
        · have hnk : ¬ n = k := fun he => hkn he.symm
          have hite : k ∉ (if d - 1 = 0 then [n] else []) := by
            by_cases hz1 : d - 1 = 0 <;> simp [hz1, hkn]
          have hcount : (n :: rest).count k = rest.count k :=
            List.count_cons_of_ne hkn _
          constructor
          · intro hmem
            rcases List.mem_append.mp hmem with h | h
            · exact absurd h hite
            · obtain ⟨d2, hk2, h02, hc2⟩ := (hch1 k).mp h
              rw [hget1 k, if_neg hnk] at hk2
              exact ⟨d2, hk2, h02, by rw [hcount]; exact hc2⟩
          · rintro ⟨d2, hk2, h02, hc2⟩
            apply List.mem_append.mpr
            right
            apply (hch1 k).mpr
            refine ⟨d2, ?_, h02, ?_⟩
            · rw [hget1 k, if_neg hnk]
              exact hk2
            · rw [hcount] at hc2
              exact hc2

/-! ### Fuel analysis of the worklist loop -/

theorem kahnLoopF_fuel_enough (adj : List (String × List String)) :
    ∀ (fuel : Nat) (inDeg : List (String × Nat)) (queue result : List String),
      sumDeg inDeg + queue.length ≤ fuel →
      kahnLoopF adj fuel inDeg queue result ≠ none := by
  intro fuel
  induction fuel with
  | zero =>
    intro inDeg queue result h
    cases queue with
    | nil => simp [kahnLoopF]
    | cons t rest =>
      exfalso
      simp [List.length_cons] at h
  | succ fuel ih =>
    intro inDeg queue result h
    cases queue with
    | nil => simp [kahnLoopF]
    | cons t rest =>
      cases hpn : processNeighbors inDeg ((mapGet adj t).getD []) with
      | none => simp [kahnLoopF, hpn]
      | some pr =>
        obtain ⟨inDeg2, zs⟩ := pr
        have hred : kahnLoopF adj (fuel + 1) inDeg (t :: rest) result =
            kahnLoopF adj fuel inDeg2 (rest ++ zs) (result ++ [t]) := by
          simp [kahnLoopF, hpn]
        rw [hred]
        apply ih
        have hsum := processNeighbors_sum _ _ _ _ hpn
        simp only [List.length_append]
        simp only [List.length_cons] at h
        omega

theorem kahnLoopF_add_fuel (adj : List (String × List String)) :
    ∀ (fuel : Nat) (inDeg : List (String × Nat)) (queue result : List String) (k : Nat),
      sumDeg inDeg + queue.length ≤ fuel →
      kahnLoopF adj (fuel + k) inDeg queue result = kahnLoopF adj fuel inDeg queue result := by
  intro fuel
  induction fuel with
  | zero =>
    intro inDeg queue result k h
    cases queue with
    | nil =>
      cases k with
      | zero => rfl
      | succ k => simp [kahnLoopF]
    | cons t rest =>
      exfalso
      simp [List.length_cons] at h
  | succ fuel ih =>
    intro inDeg queue result k h
    cases queue with
    | nil =>
      have he : fuel + 1 + k = (fuel + k) + 1 := by omega
      rw [he]
      simp [kahnLoopF]
    | cons t rest =>
      have he : fuel + 1 + k = (fuel + k) + 1 := by omega
      rw [he]
      cases hpn : processNeighbors inDeg ((mapGet adj t).getD []) with
      | none => simp [kahnLoopF, hpn]
      | some pr =>
        obtain ⟨inDeg2, zs⟩ := pr
        have hred1 : kahnLoopF adj ((fuel + k) + 1) inDeg (t :: rest) result =
            kahnLoopF adj (fuel + k) inDeg2 (rest ++ zs) (result ++ [t]) := by
          simp [kahnLoopF, hpn]
        have hred2 : kahnLoopF adj (fuel + 1) inDeg (t :: rest) result =
            kahnLoopF adj fuel inDeg2 (rest ++ zs) (result ++ [t]) := by
          simp [kahnLoopF, hpn]
        rw [hred1, hred2]
        apply ih
        have hsum := processNeighbors_sum _ _ _ _ hpn
        simp only [List.length_append]
        simp only [List.length_cons] at h
        omega

theorem topological_sortAux_add_fuel (g : OctoTree) (k : Nat) :
    g.topological_sortAux (g.fuelBound + k) = g.topological_sort := by
  have h := kahnLoopF_add_fuel (buildAdj g.tasks)
      (sumDeg (buildInDegree g.tasks) + (seedQueue (buildInDegree g.tasks)).length)
      (buildInDegree g.tasks) (seedQueue (buildInDegree g.tasks)) [] k (le_refl _)
  simp only [OctoTree.topological_sort, OctoTree.topological_sortAux, OctoTree.fuelBound]
  rw [h]

/-! ### The loop invariant of Kahn's algorithm -/

theorem keysOf_degMap (T : List (String × Task)) (res : List String) :
    (T.map (fun p => (p.1, degAfter p.2 res))).map Prod.fst = keysOf T := by
  show _ = T.map Prod.fst
  rw [List.map_map]
  apply map_congr_mem
  intro p _
  rfl

theorem mapGet_degMap (T : List (String × Task)) (res : List String) (k : String) :
    mapGet (T.map (fun p => (p.1, degAfter p.2 res))) k =
      (mapGet T k).map (fun tk => degAfter tk res) :=
  mapGet_map_snd (fun tk => degAfter tk res) T k

/-- The invariant of the worklist loop, relative to the task list `T`:
`res` is the output so far, `queue` the pending queue, `inDeg` the current
in-degree bookkeeping.  `degAfter p.2 res` counts the dependency occurrences of
a task whose target has not been emitted yet. -/
structure Inv (T : List (String × Task)) (inDeg : List (String × Nat))
    (queue res : List String) : Prop where
  deg_eq : inDeg = T.map (fun p => (p.1, degAfter p.2 res))
  res_sub : ∀ x ∈ res, x ∈ keysOf T
  queue_sub : ∀ x ∈ queue, x ∈ keysOf T
  nodup : (res ++ queue).Nodup
  zero_iff : ∀ p ∈ T, (degAfter p.2 res = 0 ↔ p.1 ∈ res ∨ p.1 ∈ queue)
  ordered : ∀ p ∈ T, ∀ n, res[n]? = some p.1 → ∀ d ∈ p.2.dependencies, d ∈ res.take n

theorem inv_step {T : List (String × Task)} (hnd : (keysOf T).Nodup)
    {inDeg : List (String × Nat)} {t : String} {rest res : List String}
    (h : Inv T inDeg (t :: rest) res) :
    ∃ zs, processNeighbors inDeg (adjOf T t) =
        some (T.map (fun p => (p.1, degAfter p.2 (res ++ [t]))), zs) ∧
      Inv T (T.map (fun p => (p.1, degAfter p.2 (res ++ [t])))) (rest ++ zs) (res ++ [t]) := by
  obtain ⟨hdeg, hres, hqueue, hnodup, hzero, hord⟩ := h
  have ht_key : t ∈ keysOf T := hqueue t (List.mem_cons_self _ _)
  have hnodup3 := List.nodup_append.mp hnodup
  have ht_notres : t ∉ res := fun hmem => hnodup3.2.2 hmem (List.mem_cons_self _ _)
  have hnd_inDeg : (inDeg.map Prod.fst).Nodup := by
    rw [hdeg, keysOf_degMap]
    exact hnd
  have hget_inDeg : ∀ k, mapGet inDeg k = (mapGet T k).map (fun tk => degAfter tk res) := by
    intro k
    rw [hdeg, mapGet_degMap]
  have hcnt : ∀ n ∈ adjOf T t, ∀ d, mapGet inDeg n = some d → (adjOf T t).count n ≤ d := by
    intro n hn d hd
    rw [hget_inDeg n] at hd
    cases hTn : mapGet T n with
    | none => rw [hTn] at hd; exact Option.noConfusion hd
    | some tk =>
      rw [hTn] at hd
      injection hd with hd
      have hmem : (n, tk) ∈ T := mapGet_mem hTn
      have hcount := count_adjOf hnd hmem t
      rw [hcount]
      rw [← hd]
      unfold degAfter
      apply count_le_countP
      simpa using ht_notres
  obtain ⟨zs, hpn, hzn, hzsub, hch⟩ := processNeighbors_spec (adjOf T t) inDeg hnd_inDeg hcnt
  have hdeg2 : inDeg.map (fun p => (p.1, p.2 - (adjOf T t).count p.1)) =
      T.map (fun p => (p.1, degAfter p.2 (res ++ [t]))) := by
    rw [hdeg, List.map_map]
    apply map_congr_mem
    intro p hp
    simp only [Function.comp_apply]
    show (p.1, degAfter p.2 res - (adjOf T t).count p.1) = (p.1, degAfter p.2 (res ++ [t]))
    rw [count_adjOf hnd hp t]
    have hda := @degAfter_append p.2 res t ht_notres
    have he : degAfter p.2 res - p.2.dependencies.count t = degAfter p.2 (res ++ [t]) := by
      omega
    rw [he]
  rw [hdeg2] at hpn
  have hkey_entry : ∀ z ∈ keysOf T, ∃ p, p ∈ T ∧ p.1 = z := by
    intro z hz
    obtain ⟨p, hp, he⟩ := List.mem_map.mp hz
    exact ⟨p, hp, he⟩
  have hz_iff : ∀ p ∈ T,
      (p.1 ∈ zs ↔ 0 < degAfter p.2 res ∧ degAfter p.2 res = p.2.dependencies.count t) := by
    intro p hp
    rw [hch p.1]
    have hgetT : mapGet T p.1 = some p.2 := mapGet_of_mem_nodup hnd hp
    have hgetI : mapGet inDeg p.1 = some (degAfter p.2 res) := by
      rw [hget_inDeg, hgetT]
      rfl
    have hcA : (adjOf T t).count p.1 = p.2.dependencies.count t := count_adjOf hnd hp t
    constructor
    · rintro ⟨d, hd, h0, hcq⟩
      rw [hgetI] at hd
      injection hd with hd
      subst hd
      exact ⟨h0, by rw [← hcA]; exact hcq⟩
    · rintro ⟨h0, hcq⟩
      exact ⟨degAfter p.2 res, hgetI, h0, by rw [hcA]; exact hcq⟩
  have hznotold : ∀ z ∈ zs, z ∉ res ∧ z ≠ t ∧ z ∉ rest := by
    intro z hz
    obtain ⟨p, hp, he⟩ := hkey_entry z (mem_adjOf (hzsub z hz))
    subst he
    have h0 := ((hz_iff p hp).mp hz).1
    refine ⟨?_, ?_, ?_⟩
    · intro hmem
      have := (hzero p hp).mpr (Or.inl hmem)
      omega
    · intro he2
      have hmem : p.1 ∈ t :: rest := by rw [he2]; exact List.mem_cons_self _ _
      have := (hzero p hp).mpr (Or.inr hmem)
      omega
    · intro hmem
      have := (hzero p hp).mpr (Or.inr (List.mem_cons_of_mem _ hmem))
      omega
  refine ⟨zs, hpn, ⟨rfl, ?_, ?_, ?_, ?_, ?_⟩⟩
  · intro x hx
    rcases List.mem_append.mp hx with h | h
    · exact hres x h
    · have hxt : x = t := by simpa using h
      rw [hxt]
      exact ht_key
  · intro x hx
    rcases List.mem_append.mp hx with h | h
    · exact hqueue x (List.mem_cons_of_mem _ h)
    · exact mem_adjOf (hzsub x h)
  · have heq : (res ++ [t]) ++ (rest ++ zs) = (res ++ t :: rest) ++ zs := by
      simp
    rw [heq]
    apply List.Nodup.append hnodup hzn
    intro a ha haz
    obtain ⟨h1, h2, h3⟩ := hznotold a haz
    rcases List.mem_append.mp ha with h | h
    · exact h1 h
    · rcases List.mem_cons.mp h with h | h
      · exact h2 h
      · exact h3 h
  · intro p hp
    have hda := @degAfter_append p.2 res t ht_notres
    have hcle : p.2.dependencies.count t ≤ degAfter p.2 res := by
      unfold degAfter
      apply count_le_countP
      simpa using ht_notres
    constructor
    · intro hnew
      by_cases hold : degAfter p.2 res = 0
      · rcases (hzero p hp).mp hold with h | h
        · exact Or.inl (List.mem_append.mpr (Or.inl h))
        · rcases List.mem_cons.mp h with h | h
          · exact Or.inl (List.mem_append.mpr (Or.inr (by simp [h])))
          · exact Or.inr (List.mem_append.mpr (Or.inl h))
      · have hz : p.1 ∈ zs := (hz_iff p hp).mpr ⟨by omega, by omega⟩
        exact Or.inr (List.mem_append.mpr (Or.inr hz))
    · intro hmem
      rcases hmem with h | h
      · rcases List.mem_append.mp h with h | h
        · have := (hzero p hp).mpr (Or.inl h)
          omega
        · have hpt : p.1 = t := by simpa using h
          have hmem2 : p.1 ∈ t :: rest := by rw [hpt]; exact List.mem_cons_self _ _
          have := (hzero p hp).mpr (Or.inr hmem2)
          omega
      · rcases List.mem_append.mp h with h | h
        · have := (hzero p hp).mpr (Or.inr (List.mem_cons_of_mem _ h))
          omega
        · have := (hz_iff p hp).mp h
          omega
  · intro p hp n hn d hd
    by_cases hlt : n < res.length
    · rw [List.getElem?_append_left hlt] at hn
      have htake : (res ++ [t]).take n = res.take n := by
        rw [List.take_append_eq_append_take]
        have hz0 : n - res.length = 0 := by omega
        rw [hz0]
        simp
      rw [htake]
      exact hord p hp n hn d hd
    · have hge : res.length ≤ n := by omega
      rw [List.getElem?_append_right hge] at hn
      have hn0 : n - res.length = 0 := by
        by_contra hc
        have h1 : ([t] : List String).length ≤ n - res.length := by
          simp
          omega
        rw [List.getElem?_eq_none h1] at hn
        exact Option.noConfusion hn
      rw [hn0] at hn
      have hpt : p.1 = t := by
        simp at hn
        exact hn.symm
      have hne : n = res.length := by omega
      have htake : (res ++ [t]).take n = res := by
        rw [hne]
        exact List.take_left _ _
      rw [htake]
      have hmem2 : p.1 ∈ t :: rest := by rw [hpt]; exact List.mem_cons_self _ _
      have h0 : degAfter p.2 res = 0 := (hzero p hp).mpr (Or.inr hmem2)
      unfold degAfter at h0
      rw [List.countP_eq_zero] at h0
      have := h0 d hd
      simpa using this

theorem seedQueue_sub {m : List (String × Nat)} :
    ∀ x ∈ seedQueue m, x ∈ m.map Prod.fst := by
  intro x hx
  simp only [seedQueue, List.mem_map, List.mem_filter] at hx
  obtain ⟨q, ⟨hq, _⟩, he⟩ := hx
  exact he ▸ List.mem_map_of_mem Prod.fst hq

theorem seedQueue_nodup {m : List (String × Nat)} (h : (m.map Prod.fst).Nodup) :
    (seedQueue m).Nodup :=
  h.sublist ((List.filter_sublist m).map Prod.fst)

theorem entry_eq_of_nodup {T : List (String × Task)} (hnd : (keysOf T).Nodup)
    {p q : String × Task} (hp : p ∈ T) (hq : q ∈ T) (hk : p.1 = q.1) : p = q := by
  have h1 := mapGet_of_mem_nodup hnd hp
  have h2 := mapGet_of_mem_nodup hnd hq
  rw [hk, h2] at h1
  injection h1 with h1
  cases p
  cases q
  simp_all

theorem inv_init {T : List (String × Task)} (hnd : (keysOf T).Nodup) :
    Inv T (buildInDegree T) (seedQueue (buildInDegree T)) [] := by
  have hb := buildInDegree_eq hnd
  have hkeys : (buildInDegree T).map Prod.fst = keysOf T := by
    rw [hb]
    show _ = T.map Prod.fst
    rw [List.map_map]
    apply map_congr_mem
    intro p _
    rfl
  refine ⟨?_, ?_, ?_, ?_, ?_, ?_⟩
  · rw [hb]
    apply map_congr_mem
    intro p _
    rw [degAfter_nil]
  · intro x hx
    simp at hx
  · intro x hx
    have := seedQueue_sub x hx
    rw [hkeys] at this
    exact this
  · simp only [List.nil_append]
    apply seedQueue_nodup
    rw [hkeys]
    exact hnd
  · intro p hp
    rw [degAfter_nil]
    simp only [List.not_mem_nil, false_or]
    constructor
    · intro h0
      have hmem : (p.1, p.2.dependencies.length) ∈ buildInDegree T := by
        rw [hb]
        exact List.mem_map_of_mem _ hp
      simp only [seedQueue, List.mem_map, List.mem_filter]
      refine ⟨(p.1, p.2.dependencies.length), ⟨hmem, by simp [h0]⟩, rfl⟩
    · intro hmem
      simp only [seedQueue, List.mem_map, List.mem_filter] at hmem
      obtain ⟨q, ⟨hq, hq0⟩, he⟩ := hmem
      rw [hb] at hq
      obtain ⟨p2, hp2, he2⟩ := List.mem_map.mp hq
      have hpk : p2.1 = p.1 := by
        rw [← he]
        rw [← he2]
      have hpe : p2 = p := entry_eq_of_nodup hnd hp2 hp hpk
      have hlen : q.2 = p.2.dependencies.length := by
        rw [← he2, hpe]
      simp at hq0
      rw [hlen] at hq0
      exact hq0
  · intro p hp n hn
    simp at hn

theorem kahnLoopF_inv {T : List (String × Task)} (hnd : (keysOf T).Nodup) :
    ∀ (fuel : Nat) (inDeg : List (String × Nat)) (queue res : List String),
      Inv T inDeg queue res →
      sumDeg inDeg + queue.length ≤ fuel →
      ∃ fin, kahnLoopF (buildAdj T) fuel inDeg queue res = some (some fin) ∧
        Inv T (T.map (fun p => (p.1, degAfter p.2 fin))) [] fin := by
  intro fuel
  induction fuel with
  | zero =>
    intro inDeg queue res hinv hle
    cases queue with
    | nil =>
      refine ⟨res, by simp [kahnLoopF], ?_⟩
      rw [← hinv.deg_eq]
      exact hinv
    | cons t rest =>
      exfalso
      simp [List.length_cons] at hle
  | succ fuel ih =>
    intro inDeg queue res hinv hle
    cases queue with
    | nil =>
      refine ⟨res, by simp [kahnLoopF], ?_⟩
      rw [← hinv.deg_eq]
      exact hinv
    | cons t rest =>
      obtain ⟨zs, hpn, hinv2⟩ := inv_step hnd hinv
      have hadj : (mapGet (buildAdj T) t).getD [] = adjOf T t := mapGet_buildAdj T t
      have hred : kahnLoopF (buildAdj T) (fuel + 1) inDeg (t :: rest) res =
          kahnLoopF (buildAdj T) fuel (T.map (fun p => (p.1, degAfter p.2 (res ++ [t]))))
            (rest ++ zs) (res ++ [t]) := by
        simp [kahnLoopF, hadj, hpn]
      rw [hred]
      apply ih _ _ _ hinv2
      have hsum := processNeighbors_sum _ _ _ _ hpn
      have hsum2 : sumDeg (T.map (fun p => (p.1, degAfter p.2 (res ++ [t])))) + zs.length ≤
          sumDeg inDeg := hsum
      simp only [List.length_append]
      simp only [List.length_cons] at hle
      omega

/-- Running `topological_sort` on a well-formed graph: the loop completes
normally and its output satisfies the final invariant. -/
theorem topological_sort_run (g : OctoTree) (hwf : g.WF) :
    ∃ fin, Inv g.tasks (g.tasks.map (fun p => (p.1, degAfter p.2 fin))) [] fin ∧
      g.topological_sort = (if fin.length ≠ g.tasks.length
        then some (Except.error "Cycle detected in DAG") else some (Except.ok fin)) := by
  obtain ⟨fin, hk, hinv⟩ := kahnLoopF_inv hwf g.fuelBound (buildInDegree g.tasks)
    (seedQueue (buildInDegree g.tasks)) [] (inv_init hwf) (le_refl _)
  refine ⟨fin, hinv, ?_⟩
  simp only [OctoTree.topological_sort, OctoTree.topological_sortAux, OctoTree.fuelBound]
  rw [show OctoTree.fuelBound g =
    sumDeg (buildInDegree g.tasks) + (seedQueue (buildInDegree g.tasks)).length from rfl] at hk
  rw [hk]

/-! ### Consequences of the final invariant -/

theorem length_lt_of_missing {T : List (String × Task)} {fin : List String} {x : String}
    (hfnd : fin.Nodup) (hsub : ∀ y ∈ fin, y ∈ keysOf T)
    (hx : x ∈ keysOf T) (hxf : x ∉ fin) :
    fin.length < T.length := by
  have hsub2 : ∀ y ∈ fin, y ∈ (keysOf T).erase x := by
    intro y hy
    have hyx : y ≠ x := fun he => hxf (he ▸ hy)
    exact (List.mem_erase_of_ne hyx).mpr (hsub y hy)
  have hsp : List.Subperm fin ((keysOf T).erase x) := hfnd.subperm hsub2
  have hlen := hsp.length_le
  have he : ((keysOf T).erase x).length = (keysOf T).length - 1 :=
    List.length_erase_of_mem hx
  have hk : (keysOf T).length = T.length := by simp [keysOf]
  have hpos : 0 < (keysOf T).length := List.length_pos_of_mem hx
  omega

theorem mem_take_index {l : List String} {n : Nat} {d : String} (h : d ∈ l.take n) :
    ∃ m, m < n ∧ l[m]? = some d := by
  obtain ⟨m, hm⟩ := List.mem_iff_getElem?.mp h
  have hmn : m < n := by
    by_contra hc
    have hlen : (l.take n).length ≤ m := by
      have := List.length_take_le n l
      omega
    rw [List.getElem?_eq_none hlen] at hm
    exact Option.noConfusion hm
  rw [List.getElem?_take_of_lt hmn] at hm
  exact ⟨m, hmn, hm⟩

theorem ordered_no_cycle {g : OctoTree} {fin : List String}
    (hord : ∀ p ∈ g.tasks, ∀ n, fin[n]? = some p.1 → ∀ d ∈ p.2.dependencies, d ∈ fin.take n)
    {x : String} (hcyc : Relation.TransGen (Depends g) x x) : x ∉ fin := by
  have hdesc : ∀ a b, Relation.TransGen (Depends g) a b →
      ∀ n : Nat, fin[n]? = some a → ∃ m, m < n ∧ fin[m]? = some b := by
    intro a b h
    induction h with
    | single hr =>
      intro n hn
      obtain ⟨p, hp, hpa, hbd⟩ := hr
      have hmem := hord p hp n (by rw [hpa]; exact hn) _ hbd
      exact mem_take_index hmem
    | tail h1 hr ih =>
      intro n hn
      obtain ⟨m, hm, hmb⟩ := ih n hn
      obtain ⟨p, hp, hpb, hcd⟩ := hr
      have hmem := hord p hp m (by rw [hpb]; exact hmb) _ hcd
      obtain ⟨m2, hm2, hm2b⟩ := mem_take_index hmem
      exact ⟨m2, by omega, hm2b⟩
  intro hxf
  obtain ⟨n0, hn0⟩ := List.mem_iff_getElem?.mp hxf
  have hno : ∀ n : Nat, fin[n]? = some x → False := by
    intro n
    induction n using Nat.strong_induction_on with
    | _ n ihn =>
      intro hn
      obtain ⟨m, hm, hmx⟩ := hdesc x x hcyc n hn
      exact ihn m hm hmx
  exact hno n0 hn0

theorem exists_cycle_of_succ (R : String → String → Prop) :
    ∀ (N : Nat) (U : List String), U.length ≤ N →
      (∀ x ∈ U, ∃ y, y ∈ U ∧ R x y) →
      U = [] ∨ ∃ x, x ∈ U ∧ Relation.TransGen R x x := by
  intro N
  induction N with
  | zero =>
    intro U hlen _
    left
    rw [← List.length_eq_zero]
    omega
  | succ N ihN =>
    intro U hlen hsucc
    rcases U with _ | ⟨x0, U1⟩
    · left; rfl
    · right
      classical
      by_cases hx0 : Relation.TransGen R x0 x0
      · exact ⟨x0, List.mem_cons_self _ _, hx0⟩
      · set V := (x0 :: U1).filter (fun y => decide (Relation.TransGen R x0 y)) with hV
        have hVsub : ∀ y ∈ V, y ∈ (x0 :: U1) ∧ Relation.TransGen R x0 y := by
          intro y hy
          rw [hV] at hy
          have h2 := List.mem_filter.mp hy
          exact ⟨h2.1, by simpa using h2.2⟩
        have hVlen : V.length < (x0 :: U1).length := by
          have hsubl : V.Sublist (x0 :: U1) := by rw [hV]; exact List.filter_sublist _
          have hle := hsubl.length_le
          rcases Nat.lt_or_ge V.length (x0 :: U1).length with h | h
          · exact h
          · exfalso
            have heq2 := hsubl.eq_of_length (by omega)
            have hx0V : x0 ∈ V := heq2 ▸ List.mem_cons_self x0 U1
            exact hx0 ((hVsub x0 hx0V).2)
        have hVsucc : ∀ y ∈ V, ∃ z, z ∈ V ∧ R y z := by
          intro y hy
          obtain ⟨hyU, hxy⟩ := hVsub y hy
          obtain ⟨z, hzU, hyz⟩ := hsucc y hyU
          refine ⟨z, ?_, hyz⟩
          rw [hV]
          apply List.mem_filter.mpr
          exact ⟨hzU, by simpa using hxy.tail hyz⟩
        have hVne : V ≠ [] := by
          obtain ⟨y0, hy0U, hxy0⟩ := hsucc x0 (List.mem_cons_self _ _)
          have hy0V : y0 ∈ V := by
            rw [hV]
            apply List.mem_filter.mpr
            exact ⟨hy0U, by simpa using Relation.TransGen.single hxy0⟩
          intro he
          rw [he] at hy0V
          simp at hy0V
        have hlen2 : V.length ≤ N := by
          simp only [List.length_cons] at hlen hVlen
          omega
        rcases ihN V hlen2 hVsucc with h | ⟨x, hxV, hxx⟩
        · exact absurd h hVne
        · exact ⟨x, (hVsub x hxV).1, hxx⟩

theorem final_complete {g : OctoTree} {fin : List String}
    (hzero : ∀ p ∈ g.tasks, (degAfter p.2 fin = 0 ↔ p.1 ∈ fin))
    (hdeps : ∀ p ∈ g.tasks, ∀ d ∈ p.2.dependencies, d ∈ keysOf g.tasks)
    (hacyc : ∀ x, ¬ Relation.TransGen (Depends g) x x) :
    ∀ x ∈ keysOf g.tasks, x ∈ fin := by
  by_contra hc
  push_neg at hc
  obtain ⟨x0, hx0k, hx0f⟩ := hc
  have hU : ∀ x, x ∈ (keysOf g.tasks).filter (fun x => decide (x ∉ fin)) ↔
      (x ∈ keysOf g.tasks ∧ x ∉ fin) := by
    intro x
    rw [List.mem_filter]
    simp
  have hx0U : x0 ∈ (keysOf g.tasks).filter (fun x => decide (x ∉ fin)) :=
    (hU x0).mpr ⟨hx0k, hx0f⟩
  have hsucc : ∀ x ∈ (keysOf g.tasks).filter (fun x => decide (x ∉ fin)),
      ∃ y, y ∈ (keysOf g.tasks).filter (fun x => decide (x ∉ fin)) ∧ Depends g x y := by
    intro x hx
    obtain ⟨hxk, hxf⟩ := (hU x).mp hx
    obtain ⟨p, hp, hpx⟩ := List.mem_map.mp hxk
    have hdnz : degAfter p.2 fin ≠ 0 := by
      intro h0
      exact hxf (hpx ▸ ((hzero p hp).mp h0))
    have hpos : 0 < degAfter p.2 fin := Nat.pos_of_ne_zero hdnz
    unfold degAfter at hpos
    rw [List.countP_pos_iff] at hpos
    obtain ⟨d, hd, hdp⟩ := hpos
    have hdnf : d ∉ fin := by simpa using hdp
    have hdk : d ∈ keysOf g.tasks := hdeps p hp d hd
    exact ⟨d, (hU d).mpr ⟨hdk, hdnf⟩, ⟨p, hp, hpx, hd⟩⟩
  rcases exists_cycle_of_succ (Depends g) _ _ (le_refl _) hsucc with h | ⟨x, _, hxx⟩
  · rw [h] at hx0U
    simp at hx0U
  · exact hacyc x hxx

/-! ### The earliest-start computation of `critical_path` -/

theorem mem_mapInsert {α : Type} {m : List (String × α)} {k : String} {v : α} :
    ∀ q ∈ mapInsert m k v, q ∈ m ∨ q = (k, v) := by
  induction m with
  | nil =>
    intro q hq
    simp [mapInsert] at hq
    right
    rw [hq]
  | cons p rest ih =>
    intro q hq
    by_cases hp : p.1 = k
    · simp only [mapInsert, if_pos hp] at hq
      rcases List.mem_cons.mp hq with h | h
      · right; rw [h]
      · left; exact List.mem_cons_of_mem _ h
    · simp only [mapInsert, if_neg hp] at hq
      rcases List.mem_cons.mp hq with h | h
      · left; rw [h]; exact List.mem_cons_self _ _
      · rcases ih q h with h2 | h2
        · left; exact List.mem_cons_of_mem _ h2
        · right; exact h2

theorem es_fold_zero (g : OctoTree) :
    ∀ (order : List String) (es : List (String × Nat)),
      (∀ q ∈ es, q.2 = 0) →
      ∀ q ∈ order.foldl (fun es task_id =>
        match mapGet g.tasks task_id with
        | none => es
        | some task =>
          mapInsert es task_id
            (((task.dependencies.filterMap (fun dep => mapGet es dep)).max?).getD 0)) es,
        q.2 = 0 := by
  intro order
  induction order with
  | nil =>
    intro es h q hq
    exact h q hq
  | cons a order iho =>
    intro es h
    rw [List.foldl_cons]
    apply iho
    intro q hq
    cases hga : mapGet g.tasks a with
    | none =>
      rw [hga] at hq
      exact h q hq
    | some task =>
      rw [hga] at hq
      have hmax : (((task.dependencies.filterMap
          (fun dep => mapGet es dep)).max?).getD 0) = 0 := by
        cases hm : (task.dependencies.filterMap (fun dep => mapGet es dep)).max? with
        | none => rfl
        | some v =>
          have hv : v ∈ task.dependencies.filterMap (fun dep => mapGet es dep) :=
            List.max?_mem (fun a b => max_choice a b) hm
          obtain ⟨dep, _, hdep⟩ := List.mem_filterMap.mp hv
          have hq2 := h _ (mapGet_mem hdep)
          simpa using hq2
      rcases mem_mapInsert q hq with h2 | h2
      · exact h q h2
      · rw [h2]
        exact hmax

theorem critical_path_of_ok (g : OctoTree) (topo : List String)
    (hok : g.topological_sort = some (Except.ok topo)) :
    g.critical_path = some (Except.ok (topo, 0)) := by
  have hes := es_fold_zero g topo [] (by simp)
  have hmax : (((topo.foldl (fun es task_id =>
      match mapGet g.tasks task_id with
      | none => es
      | some task =>
        mapInsert es task_id
          (((task.dependencies.filterMap (fun dep => mapGet es dep)).max?).getD 0)) []).map
        Prod.snd).max?).getD 0 = 0 := by
    cases hm : ((topo.foldl (fun es task_id =>
        match mapGet g.tasks task_id with
        | none => es
        | some task =>
          mapInsert es task_id
            (((task.dependencies.filterMap (fun dep => mapGet es dep)).max?).getD 0)) []).map
          Prod.snd).max? with
    | none => rfl
    | some v =>
      have hv := List.max?_mem (fun a b => max_choice a b) hm
      obtain ⟨q, hq, he⟩ := List.mem_map.mp hv
      rw [Option.getD_some, ← he]
      exact hes q hq
  have hget0 : ∀ id, (mapGet (topo.foldl (fun es task_id =>
      match mapGet g.tasks task_id with
      | none => es
      | some task =>
        mapInsert es task_id
          (((task.dependencies.filterMap (fun dep => mapGet es dep)).max?).getD 0)) []) id).getD 0
      = 0 := by
    intro id
    cases hg2 : mapGet (topo.foldl (fun es task_id =>
        match mapGet g.tasks task_id with
        | none => es
        | some task =>
          mapInsert es task_id
            (((task.dependencies.filterMap (fun dep => mapGet es dep)).max?).getD 0)) []) id with
    | none => rfl
    | some v =>
      rw [Option.getD_some]
      exact hes _ (mapGet_mem hg2)
  simp only [OctoTree.critical_path]
  rw [hok]
  simp only [hmax, hget0]
  rw [List.filter_eq_self.mpr]
  intro a _
  simp

/-! ### Edge structure of the example graphs -/

theorem exampleChain_edges {x y : String} (h : Depends exampleChain x y) :
    x = "B" ∧ y = "A" := by
  obtain ⟨p, hp, hpx, hyd⟩ := h
  have he : exampleChain.tasks =
      [("A", { id := "A", name := "Task A", duration := 5, dependencies := [] }),
       ("B", { id := "B", name := "Task B", duration := 3, dependencies := ["A"] })] := rfl
  rw [he] at hp
  rcases List.mem_cons.mp hp with h1 | h1
  · rw [h1] at hyd
    simp at hyd
  · rcases List.mem_cons.mp h1 with h2 | h2
    · rw [h2] at hyd hpx
      simp at hyd
      exact ⟨hpx.symm.trans rfl ▸ hpx.symm, hyd⟩
    · simp at h2

theorem exampleChain_acyclic : ∀ x, ¬ Relation.TransGen (Depends exampleChain) x x := by
  have hstep : ∀ x y, Relation.TransGen (Depends exampleChain) x y →
      x = "B" ∧ y = "A" := by
    intro x y h
    induction h with
    | single h => exact exampleChain_edges h
    | tail h1 h2 ih =>
      have hb := ih.2
      have hb2 := (exampleChain_edges h2).1
      rw [hb] at hb2
      exact absurd hb2 (by decide)
  intro x h
  have h1 := (hstep x x h).1
  have h2 := (hstep x x h).2
  rw [h1] at h2
  exact absurd h2 (by decide)

/-! ### The ten claims -/

/-- C1: on every well-formed graph where `topological_sort` succeeds with order
`topo`, `critical_path` succeeds with `max_time = 0` and critical set `topo`,
which contains every task id of the graph — the documented earliest-start
recurrence never adds durations, so every earliest-start is `0`. -/
theorem c1_critical_path_flat_zero (g : OctoTree) (hwf : g.WF) (topo : List String)
    (hok : g.topological_sort = some (Except.ok topo)) :
    g.critical_path = some (Except.ok (topo, 0)) ∧ ∀ k ∈ keysOf g.tasks, k ∈ topo := by
  refine ⟨critical_path_of_ok g topo hok, ?_⟩
  obtain ⟨fin, hinv, hsort⟩ := topological_sort_run g hwf
  rw [hsort] at hok
  by_cases hlen : fin.length ≠ g.tasks.length
  · rw [if_pos hlen] at hok
    injection hok with hok
    exact absurd hok (by simp)
  · rw [if_neg hlen] at hok
    injection hok with hok
    injection hok with hok
    have hfnd : fin.Nodup := by simpa using hinv.nodup
    have hfsub := hinv.res_sub
    push_neg at hlen
    have hperm : fin.Perm (keysOf g.tasks) := by
      apply (hfnd.subperm hfsub).perm_of_length_le
      have hkl : (keysOf g.tasks).length = g.tasks.length := by simp [keysOf]
      omega
    intro k hk
    rw [← hok]
    exact hperm.mem_iff.mpr hk

theorem c1_witness :
    exampleChain.critical_path = some (Except.ok (["A", "B"], 0)) ∧
    ∀ k ∈ keysOf exampleChain.tasks, k ∈ ["A", "B"] :=
  c1_critical_path_flat_zero exampleChain (by show (keysOf exampleChain.tasks).Nodup; decide) ["A", "B"] rfl

/-- C2: on every well-formed acyclic graph whose dependencies all resolve,
`topological_sort` returns `Ok` with a permutation of all task ids in which
every dependency of a task appears strictly before the task. -/
theorem c2_topological_sort_acyclic (g : OctoTree) (hwf : g.WF)
    (hdeps : ∀ p ∈ g.tasks, ∀ d ∈ p.2.dependencies, d ∈ keysOf g.tasks)
    (hacyc : ∀ x, ¬ Relation.TransGen (Depends g) x x) :
    ∃ l, g.topological_sort = some (Except.ok l) ∧ l.Perm (keysOf g.tasks) ∧
      ∀ p ∈ g.tasks, ∀ d ∈ p.2.dependencies, ∀ n : Nat, l[n]? = some p.1 → d ∈ l.take n := by
  obtain ⟨fin, hinv, hsort⟩ := topological_sort_run g hwf
  have hfnd : fin.Nodup := by simpa using hinv.nodup
  have hfsub := hinv.res_sub
  have hzero : ∀ p ∈ g.tasks, (degAfter p.2 fin = 0 ↔ p.1 ∈ fin) := by
    intro p hp
    have h1 := hinv.zero_iff p hp
    simpa using h1
  have hcomp := final_complete hzero hdeps hacyc
  have hperm : fin.Perm (keysOf g.tasks) :=
    (hfnd.subperm hfsub).antisymm (hwf.subperm hcomp)
  have hlen : fin.length = g.tasks.length := by
    have h1 := hperm.length_eq
    simp only [keysOf, List.length_map] at h1
    exact h1
  refine ⟨fin, ?_, hperm, ?_⟩
  · rw [hsort, if_neg (by omega)]
  · intro p hp d hd n hn
    exact hinv.ordered p hp n hn d hd

theorem c2_witness :
    ∃ l, exampleChain.topological_sort = some (Except.ok l) ∧
      l.Perm (keysOf exampleChain.tasks) ∧
      ∀ p ∈ exampleChain.tasks, ∀ d ∈ p.2.dependencies, ∀ n : Nat,
        l[n]? = some p.1 → d ∈ l.take n :=
  c2_topological_sort_acyclic exampleChain (by show (keysOf exampleChain.tasks).Nodup; decide) (by decide) exampleChain_acyclic

/-- C3: a well-formed graph containing a task with a dependency id that is not a
key of the task map always yields the cycle error, even with no true cycle. -/
theorem c3_phantom_dependency_error (g : OctoTree) (hwf : g.WF)
    (hph : ∃ p ∈ g.tasks, ∃ d ∈ p.2.dependencies, d ∉ keysOf g.tasks) :
    g.topological_sort = some (Except.error "Cycle detected in DAG") := by
  obtain ⟨fin, hinv, hsort⟩ := topological_sort_run g hwf
  obtain ⟨p, hp, d, hd, hdk⟩ := hph
  have hfnd : fin.Nodup := by simpa using hinv.nodup
  have hfsub := hinv.res_sub
  have hxf : p.1 ∉ fin := by
    intro hmem
    obtain ⟨n, hn⟩ := List.mem_iff_getElem?.mp hmem
    have htake := hinv.ordered p hp n hn d hd
    have hdfin : d ∈ fin := List.take_subset n fin htake
    exact hdk (hfsub d hdfin)
  have hxk : p.1 ∈ keysOf g.tasks := List.mem_map_of_mem Prod.fst hp
  have hlt := length_lt_of_missing hfnd hfsub hxk hxf
  rw [hsort, if_pos (by omega)]

theorem c3_witness :
    exampleGhost.topological_sort = some (Except.error "Cycle detected in DAG") :=
  c3_phantom_dependency_error exampleGhost (by show (keysOf exampleGhost.tasks).Nodup; decide) (by decide)

/-- C4: a well-formed graph with a true dependency cycle among defined tasks
always yields the cycle error. -/
theorem c4_cycle_error (g : OctoTree) (hwf : g.WF) (hcyc : HasCycle g) :
    g.topological_sort = some (Except.error "Cycle detected in DAG") := by
  obtain ⟨x, hx⟩ := hcyc
  obtain ⟨fin, hinv, hsort⟩ := topological_sort_run g hwf
  have hfnd : fin.Nodup := by simpa using hinv.nodup
  have hfsub := hinv.res_sub
  have hxnf : x ∉ fin := ordered_no_cycle hinv.ordered hx
  have hedge : ∀ a b : String, Relation.TransGen (Depends g) a b → ∃ y, Depends g a y := by
    intro a b h
    induction h with
    | single h => exact ⟨_, h⟩
    | tail h1 h2 ih => exact ih
  have hxkey : x ∈ keysOf g.tasks := by
    obtain ⟨y, p, hp, hpx, _⟩ := hedge x x hx
    rw [← hpx]
    exact List.mem_map_of_mem Prod.fst hp
  have hlt := length_lt_of_missing hfnd hfsub hxkey hxnf
  rw [hsort, if_pos (by omega)]

theorem c4_witness :
    exampleCycle.topological_sort = some (Except.error "Cycle detected in DAG") := by
  apply c4_cycle_error exampleCycle (by show (keysOf exampleCycle.tasks).Nodup; decide)
  have e1 : Depends exampleCycle "A" "B" :=
    ⟨("A", { id := "A", name := "Task A", duration := 1, dependencies := ["B"] }),
      by decide, rfl, by decide⟩
  have e2 : Depends exampleCycle "B" "A" :=
    ⟨("B", { id := "B", name := "Task B", duration := 1, dependencies := ["A"] }),
      by decide, rfl, by decide⟩
  exact ⟨"A", Relation.TransGen.head e1 (Relation.TransGen.single e2)⟩

/-- C5: `critical_path` returns an error exactly when `topological_sort` does
(the same error value), and always succeeds once `topological_sort` succeeds. -/
theorem c5_critical_path_error_iff (g : OctoTree) :
    (∀ e, g.critical_path = some (Except.error e) ↔
      g.topological_sort = some (Except.error e)) ∧
    (∀ l, g.topological_sort = some (Except.ok l) →
      ∃ r, g.critical_path = some (Except.ok r)) := by
  constructor
  · intro e
    constructor
    · intro h
      cases hs : g.topological_sort with
      | none =>
        rw [show g.critical_path = none from by simp [OctoTree.critical_path, hs]] at h
        exact Option.noConfusion h
      | some r =>
        cases r with
        | error e2 =>
          rw [show g.critical_path = some (Except.error e2) from by
            simp [OctoTree.critical_path, hs]] at h
          injection h with h
          injection h with h
          rw [h]
        | ok l =>
          rw [critical_path_of_ok g l hs] at h
          injection h with h
          exact Except.noConfusion h
    · intro h
      simp [OctoTree.critical_path, h]
  · intro l h
    exact ⟨(l, 0), critical_path_of_ok g l h⟩

theorem c5_witness :
    ∃ r, exampleChain.critical_path = some (Except.ok r) :=
  (c5_critical_path_error_iff exampleChain).2 ["A", "B"] rfl

/-- C6: `add_task` stores the task under its id (replacing any previous entry,
last write wins), leaves every other key unchanged, and cannot fail (it is a
total function). -/
theorem c6_add_task_spec (g : OctoTree) (t : Task) :
    mapGet (g.add_task t).tasks t.id = some t ∧
    ∀ k, k ≠ t.id → mapGet (g.add_task t).tasks k = mapGet g.tasks k := by
  constructor
  · show mapGet (mapInsert g.tasks t.id t) t.id = some t
    rw [mapGet_mapInsert]
    simp
  · intro k hk
    show mapGet (mapInsert g.tasks t.id t) k = mapGet g.tasks k
    rw [mapGet_mapInsert]
    rw [if_neg (fun he => hk he.symm)]

theorem c6_witness :
    mapGet (exampleChain.add_task
      { id := "B", name := "Task B2", duration := 7, dependencies := [] }).tasks "B" =
      some { id := "B", name := "Task B2", duration := 7, dependencies := [] } ∧
    mapGet (exampleChain.add_task
      { id := "B", name := "Task B2", duration := 7, dependencies := [] }).tasks "A" =
      mapGet exampleChain.tasks "A" := by
  constructor
  · exact (c6_add_task_spec exampleChain
      { id := "B", name := "Task B2", duration := 7, dependencies := [] }).1
  · exact (c6_add_task_spec exampleChain
      { id := "B", name := "Task B2", duration := 7, dependencies := [] }).2 "A" (by decide)

/-- C7: on the empty graph, `critical_path` returns `Ok` with the empty critical
set and total duration `0`. -/
theorem c7_critical_path_empty :
    OctoTree.new.critical_path = some (Except.ok ([], 0)) := rfl

/-- C8: the fixed five-task trading pipeline is built by `TradingWorkflow.new`
and its execution order is exactly the linear chain. -/
theorem c8_trading_workflow_order :
    TradingWorkflow.new.get_execution_order =
      some (Except.ok ["fetch_data", "calculate_indicators", "generate_signals",
        "risk_check", "execute_trades"]) := rfl

/-- C9: on every well-formed graph the worklist loop terminates: the sort
produces a result (an ordering or the cycle error), and giving the loop any
amount of extra fuel beyond the bound does not change the result. -/
theorem c9_sort_terminates (g : OctoTree) (hwf : g.WF) :
    (∃ r, g.topological_sort = some r) ∧
    ∀ k : Nat, g.topological_sortAux (g.fuelBound + k) = g.topological_sort := by
  constructor
  · obtain ⟨fin, _, hsort⟩ := topological_sort_run g hwf
    by_cases h : fin.length ≠ g.tasks.length
    · exact ⟨_, by rw [hsort, if_pos h]⟩
    · exact ⟨_, by rw [hsort, if_neg h]⟩
  · intro k
    exact topological_sortAux_add_fuel g k

theorem c9_witness :
    ∃ r, exampleCycle.topological_sort = some r :=
  (c9_sort_terminates exampleCycle (by show (keysOf exampleCycle.tasks).Nodup; decide)).1

/-- C10: on every well-formed graph the sort never reaches the abnormal state
(no in-degree decrement ever acts on a zero counter, and the fuel never runs
out), and a successful result contains no duplicate ids. -/
theorem c10_no_underflow_nodup (g : OctoTree) (hwf : g.WF) :
    g.topological_sort ≠ none ∧
    ∀ l, g.topological_sort = some (Except.ok l) → l.Nodup := by
  obtain ⟨fin, hinv, hsort⟩ := topological_sort_run g hwf
  have hfnd : fin.Nodup := by simpa using hinv.nodup
  constructor
  · rw [hsort]
    by_cases h : fin.length ≠ g.tasks.length
    · rw [if_pos h]
      simp
    · rw [if_neg h]
      simp
  · intro l hl
    rw [hsort] at hl
    by_cases h : fin.length ≠ g.tasks.length
    · rw [if_pos h] at hl
      injection hl with hl
      exact Except.noConfusion hl
    · rw [if_neg h] at hl
      injection hl with hl
      injection hl with hl
      rw [← hl]
      exact hfnd

theorem c10_witness : exampleChain.topological_sort ≠ none :=
  (c10_no_underflow_nodup exampleChain (by show (keysOf exampleChain.tasks).Nodup; decide)).1

end Adag
